import Mathlib

/-!
Shallow embedding of `df0.py` (euske/symex): a dataflow/type analysis for a
small Python subset.  Python sets of `Type` objects become `List TyObj` read
up to membership; Python dicts become association lists that preserve
insertion order; object identity (of `Ref`, `Namespace`, `Function`) becomes
indices into arenas threaded through an explicit state `St`.  The mutually
recursive evaluator (`BBlock.eval` / `BBlock.perform` / `Function.apply`)
is embedded with an explicit fuel parameter; exceptions become `Except Err`.
-/

namespace Df0

/-- Basic (primitive) type kinds: the four entries of the global `Type.types`
table (`int`, `str`, `bool`, `float`). -/
inductive Basic where
  | int | str | bool | float
deriving DecidableEq, Repr

/-- A member of a type-set: either one of the four `BasicType` singletons or a
`Function` object, identified by its index in the function arena. -/
inductive TyObj where
  | basic (b : Basic)
  | func (fid : Nat)
deriving DecidableEq, Repr

/-- A TypeValue: the Python `set` of `Type` objects, as a list read up to
membership (insertion order of `set.add` is the list order). -/
abbrev TV := List TyObj

/-- Operator tokens.  `Type.binop` and `Type.uniop` never inspect the
operator, so only its presence in the syntax tree matters. -/
inductive Op where
  | add | sub | mult | lt | other
deriving DecidableEq, Repr

/-- Constant literals, abstracted to the Python type of the literal value,
which is all `Type.get` reads from them. -/
inductive Const where
  | int | str | bool | float
deriving DecidableEq, Repr

/-- The supported expression subset (`ast.Name`, `ast.Constant`, `ast.BinOp`,
`ast.UnaryOp`, `ast.Call`, `ast.Lambda`); anything else raises
`SyntaxError` in `BBlock.eval` and is `unsupportedE` here. -/
inductive Expr where
  | name (id : String)
  | const (c : Const)
  | binOp (left : Expr) (op : Op) (right : Expr)
  | unaryOp (op : Op) (operand : Expr)
  | call (func : Expr) (args : List Expr)
  | lam (params : List String) (body : Expr) (pos : Nat × Nat)
  | unsupportedE
deriving Repr

/-- The supported statement subset of `Namespace.build1` / `BBlock.perform1`.
Assignment and loop targets are plain names, as the source assumes
(`t.id`, `tree.target.id`). -/
inductive Stmt where
  | functionDef (name : String) (params : List String) (body : List Stmt) (pos : Nat × Nat)
  | ifS (test : Expr) (body orelse : List Stmt)
  | whileS (test : Expr) (body orelse : List Stmt)
  | forS (target : String) (iter : Expr) (body orelse : List Stmt)
  | assign (targets : List String) (value : Expr)
  | augAssign (target : String) (op : Op) (value : Expr)
  | globalS (names : List String)
  | exprS (value : Expr)
  | returnS (value : Option Expr)
  | breakS
  | continueS
  | passS
  | unsupportedS
deriving Repr

/-- Identifier data of a definition node, as consumed by `idtree`. -/
inductive DefId where
  | fndefId (name : String) (pos : Nat × Nat)
  | lamId (pos : Nat × Nat)
deriving DecidableEq, Repr

/-- The `idtree` function: a stable string identifier for a definition node
(`def:name:lineno:col` / `lambda:lineno:col`). -/
def idtree : DefId → String
  | .fndefId n p => "def:" ++ n ++ ":" ++ toString p.1 ++ ":" ++ toString p.2
  | .lamId p => "lambda:" ++ toString p.1 ++ ":" ++ toString p.2

/-- The `Type.get` classmethod: maps a literal to the registered
`BasicType` for its Python type. -/
def typesGet : Const → TyObj
  | .int => .basic .int
  | .str => .basic .str
  | .bool => .basic .bool
  | .float => .basic .float

/-- The `Type.binop` method: `def binop(self, op, value): return value` —
it returns its argument (the right operand's member), not `self`. -/
def TyObj.binop (_self : TyObj) (_op : Op) (value : TyObj) : TyObj := value

/-- The `Type.uniop` method: `def uniop(self, op): return self`. -/
def TyObj.uniop (self : TyObj) (_op : Op) : TyObj := self

/-- Python `set.add`: insert at the end when not yet a member. -/
def setAdd (t : TyObj) (l : List TyObj) : List TyObj :=
  if t ∈ l then l else l ++ [t]

/-- Python `set.update`: add every member of `add` missing from `acc`. -/
def setUpdate (acc add : List TyObj) : List TyObj :=
  add.foldl (fun a t => setAdd t a) acc

/-- The `optype` function: the nested loops
`for v1 in value1: for v2 in value2: v.add(v1.binop(op, v2))`. -/
def optype (value1 : TV) (op : Op) (value2 : TV) : TV :=
  value1.foldl (fun acc v1 => value2.foldl (fun acc2 v2 => setAdd (TyObj.binop v1 op v2) acc2) acc) []

/-- Association-list lookup (Python `d[k]` / `k in d`). -/
def getA {α β : Type} [DecidableEq α] (k : α) : List (α × β) → Option β
  | [] => none
  | (k', v) :: t => if k = k' then some v else getA k t

/-- Association-list store (Python `d[k] = v`): replace in place, keeping the
original position, or append a fresh binding at the end, matching dict
insertion-order semantics. -/
def setA {α β : Type} [DecidableEq α] (k : α) (v : β) : List (α × β) → List (α × β)
  | [] => [(k, v)]
  | (k', v') :: t => if k = k' then (k, v) :: t else (k', v') :: setA k v t

/-- A `Ref`: unique identifier for a variable.  Identity in the source is
object identity; since `Namespace.add` memoizes per name, it is determined
by the owning namespace's arena index and the name. -/
structure Ref where
  space : Nat
  name : String
deriving DecidableEq, Repr

/-- A `Namespace`: name, optional parent (arena index), local `refs` and
child `spaces` tables, both in insertion order. -/
structure Namespace where
  name : String
  parent : Option Nat
  refs : List (String × Ref)
  spaces : List (String × Nat)
deriving Repr

/-- The `Namespace.lookup` scope-chain walk, over the namespace arena.  The
fuel bounds the parent chain (callers pass the arena length); `none` is the
`KeyError` of the source. -/
def lookupIn (nss : List Namespace) : Nat → Nat → String → Option Ref
  | 0, _, _ => none
  | fuel + 1, sid, name =>
    match nss.get? sid with
    | none => none
    | some ns =>
      match getA name ns.refs with
      | some r => some r
      | none =>
        match ns.parent with
        | none => none
        | some p => lookupIn nss fuel p name

/-- The `Namespace.root` walk to the parentless namespace. -/
def rootOf (nss : List Namespace) : Nat → Nat → Option Nat
  | 0, _ => none
  | fuel + 1, sid =>
    match nss.get? sid with
    | none => none
    | some ns =>
      match ns.parent with
      | none => some sid
      | some p => rootOf nss fuel p

/-- The `Namespace.add` update on a refs table: first add wins, later adds
return the existing `Ref`. -/
def addName (sid : Nat) (refs : List (String × Ref)) (name : String) : List (String × Ref) :=
  match getA name refs with
  | some _ => refs
  | none => refs ++ [(name, ⟨sid, name⟩)]

/-- Repeated `Namespace.add` over a parameter list. -/
def addNames (sid : Nat) (refs : List (String × Ref)) : List String → List (String × Ref)
  | [] => refs
  | n :: rest => addNames sid (addName sid refs n) rest

/-- The syntax subtree owned by a `Function` object: either a `FunctionDef`
node or a `Lambda` node. -/
inductive FTree where
  | fnDef (name : String) (params : List String) (body : List Stmt) (pos : Nat × Nat)
  | lam (params : List String) (body : Expr) (pos : Nat × Nat)
deriving Repr

/-- The `idtree` key of a `Function`'s tree. -/
def FTree.defId : FTree → DefId
  | .fnDef n _ _ p => .fndefId n p
  | .lam _ _ p => .lamId p

/-- The declared parameter list (`tree.args.args`). -/
def FTree.params : FTree → List String
  | .fnDef _ ps _ _ => ps
  | .lam ps _ _ => ps

/-- A `Function` object: its defining namespace (arena index) and its tree.
Its `bbs` cache lives in the global state, keyed by the arena index. -/
structure FuncV where
  space : Nat
  tree : FTree
deriving Repr

/-- An `Environment`: the `values` dict of a `BBlock`, `Ref → TypeValue` in
insertion order. -/
abbrev Env := List (Ref × TV)

/-- A `BBlock`: its namespace, the chain of outer `values` dicts captured at
creation, its own `values`, and the return candidate `retval`. -/
structure BBlock where
  space : Nat
  envs : List Env
  values : Env
  retval : Option TV
deriving Repr

/-- The `repr` of a set member as used by the `repr(args)` cache key:
`BasicType` reprs are abbreviated, a `Function` reprs as its `idtree`
identifier (so two `Function` objects with equal `idtree` are conflated,
as in the source). -/
def reprT (funcs : List FuncV) : TyObj → String
  | .basic .int => "class int"
  | .basic .str => "class str"
  | .basic .bool => "class bool"
  | .basic .float => "class float"
  | .func fid =>
    match funcs.get? fid with
    | some f => "<Function " ++ idtree f.tree.defId ++ ">"
    | none => "<Function ?>"

/-- Injective numeric code for ordering set members canonically. -/
def TyObj.enc : TyObj → Nat
  | .basic .int => 0
  | .basic .str => 1
  | .basic .bool => 2
  | .basic .float => 3
  | .func fid => 4 + fid

/-- Insertion into an `enc`-sorted list. -/
def tyInsert (t : TyObj) : List TyObj → List TyObj
  | [] => [t]
  | h :: r => if t.enc ≤ h.enc then t :: h :: r else h :: tyInsert t r

/-- Canonical (sorted, duplicate-free) form of a TypeValue, so that two
Python sets that compare equal produce the same cache key. -/
def canonTV (v : TV) : List TyObj := v.dedup.foldr tyInsert []

/-- The cache-key type: the canonical per-argument repr sets standing in for
the `repr(args)` string. -/
abbrev Key := List (List String)

/-- The `repr(args)` cache key of `Function.apply`: each argument set
canonically ordered and mapped through member `repr`s (duplicates merged,
as equal reprs are indistinguishable in the string). -/
def keyOf (funcs : List FuncV) (args : List TV) : Key :=
  args.map (fun v => ((canonTV v).map (reprT funcs)).dedup)

/-- The global mutable state: the namespace arena, the function arena, the
`Type.functions` registration table, every function's `bbs` cache (keyed by
function index and signature), and an instrumentation counter of body
analyses per cache key (for the cache-correctness property). -/
structure St where
  nss : List Namespace
  funcs : List FuncV
  ftable : List (String × Nat)
  bbs : List ((Nat × Key) × BBlock)
  acount : List ((Nat × Key) × Nat)
deriving Repr

/-- Analyses-begun counter for one cache key. -/
def getCount (k : Nat × Key) (l : List ((Nat × Key) × Nat)) : Nat :=
  (getA k l).getD 0

/-- Increment the analyses-begun counter for one cache key. -/
def bumpA (k : Nat × Key) (l : List ((Nat × Key) × Nat)) : List ((Nat × Key) × Nat) :=
  setA k (getCount k l + 1) l

/-- Errors: `SyntaxError`, `KeyError` (failed scope or table lookup), the
`ValueError` for undefined reads, the `TypeError` of `set.update(None)`,
and fuel exhaustion (the source can diverge on recursive calls). -/
inductive Err where
  | synErr
  | keyErr
  | undefErr
  | typeErr
  | fuelOut
deriving DecidableEq, Repr

/-- The parameter-binding loop of `Function.apply`:
`for (arg, value) in zip(self.tree.args.args, args): bb.values[ref] = value.copy()`.
`zip` truncates to the shorter list; `value.copy()` is the identity under
value semantics. -/
def bindParams (nss : List Namespace) (sid : Nat) : List String → List TV → Env → Except Err Env
  | p :: ps, a :: rest, vals =>
    match lookupIn nss nss.length sid p with
    | some ref => bindParams nss sid ps rest (setA ref a vals)
    | none => .error .keyErr
  | _, _, vals => .ok vals

/-- One half of `BBlock.merge`: fold a child's `values` into the parent's,
unioning with an existing binding (`update`) or copying a fresh one. -/
def mergeOne (vals : Env) (child : Env) : Env :=
  child.foldl
    (fun acc rv =>
      match getA rv.1 acc with
      | some v0 => setA rv.1 (setUpdate v0 rv.2) acc
      | none => setA rv.1 rv.2 acc)
    vals

/-- The `BBlock.merge` method: fold in `values1`, then `values2`. -/
def BBlock.merge (vals values1 values2 : Env) : Env :=
  mergeOne (mergeOne vals values1) values2

/-- Environment-chain read of `BBlock.eval` for a name: own `values` first,
then the captured `envs`, in order. -/
def findEnv (r : Ref) : List Env → Option TV
  | [] => none
  | e :: rest =>
    match getA r e with
    | some v => some v
    | none => findEnv r rest

/-- The assignment-target loop of `BBlock.perform1` for `ast.Assign`:
`for t in tree.targets: self.values[ref] = value`. -/
def assignTargets (nss : List Namespace) (sid : Nat) (v : TV) : List String → Env → Except Err Env
  | [], vals => .ok vals
  | t :: ts, vals =>
    match lookupIn nss nss.length sid t with
    | some ref => assignTargets nss sid v ts (setA ref v vals)
    | none => .error .keyErr

/-- Update the namespace at index `sid` with a `Namespace.add` of `name`
(the source's `self.add(name)`). -/
def addRefTo (σ : St) (sid : Nat) (name : String) : Option St :=
  match σ.nss.get? sid with
  | none => none
  | some ns => some { σ with nss := σ.nss.set sid { ns with refs := addName sid ns.refs name } }

/-- The body of the `ast.Global` case of `Namespace.build1`, with the root
already computed: `self.refs[name] = space.add(name)` for each name.  The
root's `add` keeps an existing ref or appends a fresh one; the local entry
is then overwritten outright (a plain dict store, not `add`). -/
def globalLoop (σ : St) (sid rid : Nat) : List String → Option St
  | [] => some σ
  | n :: rest =>
    match σ.nss.get? rid with
    | none => none
    | some rns =>
      let (refs', r) :=
        match getA n rns.refs with
        | some r0 => (rns.refs, r0)
        | none => (rns.refs ++ [(n, (⟨rid, n⟩ : Ref))], (⟨rid, n⟩ : Ref))
      let σ1 := { σ with nss := σ.nss.set rid { rns with refs := refs' } }
      match σ1.nss.get? sid with
      | none => none
      | some ns =>
        let σ2 := { σ1 with nss := σ1.nss.set sid { ns with refs := setA n r ns.refs } }
        globalLoop σ2 sid rid rest

/-- Repeated `Namespace.add` on the arena entry `sid` over a name list
(the `ast.Assign` targets loop of `build1`). -/
def addAllTo (σ : St) (sid : Nat) : List String → Option St
  | [] => some σ
  | n :: rest =>
    match addRefTo σ sid n with
    | none => none
    | some σ1 => addAllTo σ1 sid rest

mutual

/-- The `Namespace.build1` scope-construction visit of one statement.
`none` is the `SyntaxError` raised on unsupported node kinds (and an
out-of-arena index, which a run from `initSt` never produces). -/
def build1 (sid : Nat) (σ : St) : Stmt → Option St
  | .functionDef name params body pos =>
    match σ.nss.get? sid with
    | none => none
    | some ns =>
      let cid := σ.nss.length
      let child : Namespace := ⟨ns.name ++ "." ++ name, some sid, addNames cid [] params, []⟩
      let σ1 : St :=
        { σ with nss := (σ.nss.set sid { ns with spaces := setA name cid ns.spaces }) ++ [child] }
      match buildList cid σ1 body with
      | none => none
      | some σ2 =>
        match addRefTo σ2 sid name with
        | none => none
        | some σ3 =>
          let fid := σ3.funcs.length
          some { σ3 with
                  funcs := σ3.funcs ++ [⟨cid, FTree.fnDef name params body pos⟩],
                  ftable := setA (idtree (.fndefId name pos)) fid σ3.ftable }
  | .ifS _ body orelse =>
    match buildList sid σ body with
    | none => none
    | some σ1 => buildList sid σ1 orelse
  | .whileS _ body orelse =>
    match buildList sid σ body with
    | none => none
    | some σ1 => buildList sid σ1 orelse
  | .forS target _ body orelse =>
    match addRefTo σ sid target with
    | none => none
    | some σ1 =>
      match buildList sid σ1 body with
      | none => none
      | some σ2 => buildList sid σ2 orelse
  | .assign targets _ => addAllTo σ sid targets
  | .augAssign target _ _ => addRefTo σ sid target
  | .globalS names =>
    match rootOf σ.nss σ.nss.length sid with
    | none => none
    | some rid => globalLoop σ sid rid names
  | .exprS _ => some σ
  | .returnS _ => some σ
  | .breakS => some σ
  | .continueS => some σ
  | .passS => some σ
  | .unsupportedS => none

/-- The `Namespace.build` loop over a statement sequence. -/
def buildList (sid : Nat) (σ : St) : List Stmt → Option St
  | [] => some σ
  | s :: rest =>
    match build1 sid σ s with
    | none => none
    | some σ1 => buildList sid σ1 rest

end

mutual

/-- The `BBlock.eval` expression evaluator.  It reads but never writes the
block's `values`; it can grow the global state (new `Function` objects from
lambdas, new cache entries from calls).  Fuel decreases on every recursive
call; `Err.fuelOut` stands for the divergence the source admits on
recursive functions. -/
def evalExpr : Nat → BBlock → St → Expr → Except Err (TV × St)
  | 0, _, _, _ => .error .fuelOut
  | _ + 1, bb, σ, .name id =>
    match lookupIn σ.nss σ.nss.length bb.space id with
    | none => .error .keyErr
    | some ref =>
      match getA ref bb.values with
      | some v => .ok (v, σ)
      | none =>
        match findEnv ref bb.envs with
        | some v => .ok (v, σ)
        | none => .error .undefErr
  | _ + 1, _, σ, .const c => .ok ([typesGet c], σ)
  | fuel + 1, bb, σ, .binOp l op r =>
    match evalExpr fuel bb σ l with
    | .error e => .error e
    | .ok (v1, σ1) =>
      match evalExpr fuel bb σ1 r with
      | .error e => .error e
      | .ok (v2, σ2) => .ok (optype v1 op v2, σ2)
  | fuel + 1, bb, σ, .unaryOp op operand =>
    match evalExpr fuel bb σ operand with
    | .error e => .error e
    | .ok (v, σ1) => .ok (v.foldl (fun acc t => setAdd (TyObj.uniop t op) acc) [], σ1)
  | fuel + 1, bb, σ, .call f argEs =>
    match evalExpr fuel bb σ f with
    | .error e => .error e
    | .ok (fv, σ1) => callLoop fuel bb σ1 fv argEs []
  | _ + 1, bb, σ, .lam params body pos =>
    let sid := σ.nss.length
    let ns : Namespace := ⟨idtree (.lamId pos), some bb.space, addNames sid [] params, []⟩
    let fid := σ.funcs.length
    .ok ([TyObj.func fid],
      { σ with
          nss := σ.nss ++ [ns],
          funcs := σ.funcs ++ [⟨sid, FTree.lam params body pos⟩],
          ftable := setA (idtree (.lamId pos)) fid σ.ftable })
  | _ + 1, _, _, .unsupportedE => .error .synErr

/-- The per-member loop of the `ast.Call` case of `BBlock.eval`: for every
`Function` member of the callee set, evaluate the argument expressions
(afresh per member, as in the source), invoke `apply`, and
`values.update` the result — which is the `TypeError` of
`set.update(None)` when the function never returned a value. -/
def callLoop : Nat → BBlock → St → List TyObj → List Expr → TV → Except Err (TV × St)
  | 0, _, _, _, _, _ => .error .fuelOut
  | _ + 1, _, σ, [], _, acc => .ok (acc, σ)
  | fuel + 1, bb, σ, .basic _ :: rest, argEs, acc => callLoop fuel bb σ rest argEs acc
  | fuel + 1, bb, σ, .func fid :: rest, argEs, acc =>
    match evalArgs fuel bb σ argEs with
    | .error e => .error e
    | .ok (args, σ1) =>
      match applyFunc fuel fid args (bb.values :: bb.envs) σ1 with
      | .error e => .error e
      | .ok (none, _) => .error .typeErr
      | .ok (some v, σ2) => callLoop fuel bb σ2 rest argEs (setUpdate acc v)

/-- The argument-list comprehension `[self.eval(arg1) for arg1 in tree.args]`. -/
def evalArgs : Nat → BBlock → St → List Expr → Except Err (List TV × St)
  | 0, _, _, _ => .error .fuelOut
  | _ + 1, _, σ, [] => .ok ([], σ)
  | fuel + 1, bb, σ, e :: es =>
    match evalExpr fuel bb σ e with
    | .error err => .error err
    | .ok (v, σ1) =>
      match evalArgs fuel bb σ1 es with
      | .error err => .error err
      | .ok (vs, σ2) => .ok (v :: vs, σ2)

/-- The `Function.apply` method.  On a cache hit the stored block's `retval`
is returned and nothing runs.  On a miss a fresh block is created with the
caller's environment chain, parameters are bound to copies of the incoming
arguments, the entry is written (the source stores the mutable block before
running the body; here it is written provisionally, the analyses counter is
bumped, and the entry is overwritten with the final block afterwards), and
the body is executed. -/
def applyFunc : Nat → Nat → List TV → List Env → St → Except Err (Option TV × St)
  | 0, _, _, _, _ => .error .fuelOut
  | fuel + 1, fid, args, envs, σ =>
    match σ.funcs.get? fid with
    | none => .error .keyErr
    | some f =>
      let key := (fid, keyOf σ.funcs args)
      match getA key σ.bbs with
      | some bb => .ok (bb.retval, σ)
      | none =>
        match bindParams σ.nss f.space f.tree.params args [] with
        | .error e => .error e
        | .ok vals =>
          let bb0 : BBlock := ⟨f.space, envs, vals, none⟩
          let σ1 : St := { σ with bbs := setA key bb0 σ.bbs, acount := bumpA key σ.acount }
          match f.tree with
          | .lam _ body _ =>
            match evalExpr fuel bb0 σ1 body with
            | .error e => .error e
            | .ok (v, σ2) =>
              let bb1 := { bb0 with retval := some v }
              .ok (some v, { σ2 with bbs := setA key bb1 σ2.bbs })
          | .fnDef _ _ body _ =>
            match performList fuel bb0 σ1 body with
            | .error e => .error e
            | .ok (bb1, σ2) => .ok (bb1.retval, { σ2 with bbs := setA key bb1 σ2.bbs })

/-- The branch handling shared verbatim by the `ast.If`, `ast.While` and
`ast.For` cases of `BBlock.perform1`: run each side in a fresh child block
over the current environment chain, then merge the two children's `values`
into the parent's.  The children's `retval`s are discarded, and the test
(or iterated) expression is never evaluated. -/
def performBranch : Nat → BBlock → St → List Stmt → List Stmt → Except Err (BBlock × St)
  | 0, _, _, _, _ => .error .fuelOut
  | fuel + 1, bb, σ, body, orelse =>
    let envs := bb.values :: bb.envs
    match performList fuel ⟨bb.space, envs, [], none⟩ σ body with
    | .error e => .error e
    | .ok (bb1, σ1) =>
      match performList fuel ⟨bb.space, envs, [], none⟩ σ1 orelse with
      | .error e => .error e
      | .ok (bb2, σ2) => .ok ({ bb with values := BBlock.merge bb.values bb1.values bb2.values }, σ2)

/-- The `BBlock.perform1` statement interpreter. -/
def perform1 : Nat → BBlock → St → Stmt → Except Err (BBlock × St)
  | 0, _, _, _ => .error .fuelOut
  | _ + 1, bb, σ, .functionDef name _ _ pos =>
    match lookupIn σ.nss σ.nss.length bb.space name with
    | none => .error .keyErr
    | some ref =>
      match getA (idtree (.fndefId name pos)) σ.ftable with
      | none => .error .keyErr
      | some fid => .ok ({ bb with values := setA ref [TyObj.func fid] bb.values }, σ)
  | fuel + 1, bb, σ, .ifS _ body orelse => performBranch fuel bb σ body orelse
  | fuel + 1, bb, σ, .whileS _ body orelse => performBranch fuel bb σ body orelse
  | fuel + 1, bb, σ, .forS _ _ body orelse => performBranch fuel bb σ body orelse
  | fuel + 1, bb, σ, .assign targets value =>
    match evalExpr fuel bb σ value with
    | .error e => .error e
    | .ok (v, σ1) =>
      match assignTargets σ1.nss bb.space v targets bb.values with
      | .error e => .error e
      | .ok vals => .ok ({ bb with values := vals }, σ1)
  | fuel + 1, bb, σ, .augAssign target op value =>
    match evalExpr fuel bb σ (.name target) with
    | .error e => .error e
    | .ok (v1, σ1) =>
      match evalExpr fuel bb σ1 value with
      | .error e => .error e
      | .ok (v2, σ2) =>
        match lookupIn σ2.nss σ2.nss.length bb.space target with
        | none => .error .keyErr
        | some ref => .ok ({ bb with values := setA ref (optype v1 op v2) bb.values }, σ2)
  | _ + 1, bb, σ, .globalS _ => .ok (bb, σ)
  | fuel + 1, bb, σ, .exprS e =>
    match evalExpr fuel bb σ e with
    | .error err => .error err
    | .ok (_, σ1) => .ok (bb, σ1)
  | fuel + 1, bb, σ, .returnS (some e) =>
    match evalExpr fuel bb σ e with
    | .error err => .error err
    | .ok (v, σ1) => .ok ({ bb with retval := some v }, σ1)
  | _ + 1, bb, σ, .returnS none => .ok (bb, σ)
  | _ + 1, bb, σ, .breakS => .ok (bb, σ)
  | _ + 1, bb, σ, .continueS => .ok (bb, σ)
  | _ + 1, bb, σ, .passS => .ok (bb, σ)
  | _ + 1, _, _, .unsupportedS => .error .synErr

/-- The `BBlock.perform` loop over a statement sequence. -/
def performList : Nat → BBlock → St → List Stmt → Except Err (BBlock × St)
  | 0, _, _, _ => .error .fuelOut
  | _ + 1, bb, σ, [] => .ok (bb, σ)
  | fuel + 1, bb, σ, s :: rest =>
    match perform1 fuel bb σ s with
    | .error e => .error e
    | .ok (bb1, σ1) => performList fuel bb1 σ1 rest

end

/-- The initial state of the driver: one root `Namespace('')`, empty
`Type.functions` table, empty caches. -/
def initSt : St := ⟨[⟨"", none, [], []⟩], [], [], [], []⟩

/-- The driver: build the root scope over the program, then perform the
top-level statement sequence in a root block with an empty chain. -/
def runProg (fuel : Nat) (prog : List Stmt) : Except Err (BBlock × St) :=
  match buildList 0 initSt prog with
  | none => .error .synErr
  | some σ => performList fuel ⟨0, [], [], none⟩ σ prog

/-! Association-list and set-model lemmas. -/

theorem getA_setA_self {α β : Type} [DecidableEq α] (k : α) (v : β) (l : List (α × β)) :
    getA k (setA k v l) = some v := by
  induction l with
  | nil => simp [getA, setA]
  | cons h t ih =>
    obtain ⟨k', v'⟩ := h
    by_cases hk : k = k'
    · subst hk; simp [getA, setA]
    · simp [getA, setA, hk, ih]

theorem getA_setA_ne {α β : Type} [DecidableEq α] {k k' : α} (h : k ≠ k') (v : β)
    (l : List (α × β)) : getA k (setA k' v l) = getA k l := by
  induction l with
  | nil => simp [getA, setA, h]
  | cons hd t ih =>
    obtain ⟨k'', v''⟩ := hd
    by_cases hk : k' = k''
    · subst hk
      simp [getA, setA, h]
    · by_cases hkk : k = k''
      · subst hkk; simp [getA, setA, hk]
      · simp [getA, setA, hk, hkk, ih]

theorem isSome_getA_setA {α β : Type} [DecidableEq α] {k' : α} (k : α) (v : β)
    {l : List (α × β)} (h : (getA k' l).isSome = true) :
    (getA k' (setA k v l)).isSome = true := by
  by_cases hk : k' = k
  · subst hk; simp [getA_setA_self]
  · rwa [getA_setA_ne hk]

theorem getCount_bumpA_self (k : Nat × Key) (l : List ((Nat × Key) × Nat)) :
    getCount k (bumpA k l) = getCount k l + 1 := by
  simp [getCount, bumpA, getA_setA_self]

theorem getCount_bumpA_ne {k k' : Nat × Key} (h : k' ≠ k) (l : List ((Nat × Key) × Nat)) :
    getCount k' (bumpA k l) = getCount k' l := by
  simp [getCount, bumpA, getA_setA_ne h]

theorem mem_setAdd {t x : TyObj} {l : List TyObj} : x ∈ setAdd t l ↔ x ∈ l ∨ x = t := by
  unfold setAdd
  split
  · next hmem =>
    constructor
    · exact Or.inl
    · rintro (hx | rfl)
      · exact hx
      · exact hmem
  · simp

theorem setUpdate_cons (acc : List TyObj) (t : TyObj) (rest : List TyObj) :
    setUpdate acc (t :: rest) = setUpdate (setAdd t acc) rest := rfl

theorem mem_setUpdate {x : TyObj} :
    ∀ (add acc : List TyObj), x ∈ setUpdate acc add ↔ x ∈ acc ∨ x ∈ add := by
  intro add
  induction add with
  | nil => intro acc; simp [setUpdate]
  | cons t rest ih =>
    intro acc
    rw [setUpdate_cons, ih, mem_setAdd]
    simp
    tauto

theorem subset_setUpdate_left (acc add : List TyObj) : acc ⊆ setUpdate acc add := by
  intro x hx
  exact (mem_setUpdate add acc).mpr (Or.inl hx)

theorem subset_setUpdate_right (acc add : List TyObj) : add ⊆ setUpdate acc add := by
  intro x hx
  exact (mem_setUpdate add acc).mpr (Or.inr hx)

/-! Claim C2.  `Type.binop` returns its argument, so `optype` yields the
right operand's type-set, contradicting both the claim and the source's own
header comment `(arg1 op arg2) => arg1`. -/

/-- C2: evaluated at the failing input — a binary operation whose left
operand's TypeValue is the integer singleton and whose right operand's is
the string singleton — `optype` returns the right operand's TypeValue, not
the left operand's as the claim states. -/
theorem c2_optype_right_operand :
    optype [TyObj.basic .int] .add [TyObj.basic .str] = [TyObj.basic .str] ∧
    optype [TyObj.basic .int] .add [TyObj.basic .str] ≠ [TyObj.basic .int] :=
  ⟨rfl, by decide⟩

/-! Claim C9.  `BBlock.perform1` never touches the test (or iterated)
expression of `ast.If` / `ast.While` / `ast.For`. -/

/-- C9: the result of performing an `if`, `while` or `for` statement is
identical for any choice of test (respectively iterated) expression: the
test is never evaluated, so a test naming an undefined variable raises no
error and a function called only inside a test is never analyzed. -/
theorem c9_branch_tests_ignored :
    ∀ (fuel : Nat) (bb : BBlock) (σ : St) (t1 t2 : Expr) (body orelse : List Stmt)
      (target : String) (it1 it2 : Expr),
      perform1 fuel bb σ (.ifS t1 body orelse) = perform1 fuel bb σ (.ifS t2 body orelse) ∧
      perform1 fuel bb σ (.whileS t1 body orelse) = perform1 fuel bb σ (.whileS t2 body orelse) ∧
      perform1 fuel bb σ (.forS target it1 body orelse)
        = perform1 fuel bb σ (.forS target it2 body orelse) := by
  intro fuel bb σ t1 t2 body orelse target it1 it2
  match fuel with
  | 0 => exact ⟨rfl, rfl, rfl⟩
  | fuel + 1 => exact ⟨rfl, rfl, rfl⟩

/-! Claim C4.  A callee whose body never returns a value makes `apply`
return `None`, and the caller's `values.update(value)` then raises
`TypeError`. -/

/-- The failing program of C4: `def g(): pass` followed by the call `g()`. -/
def prog4 : List Stmt :=
  [.functionDef "g" [] [.passS] (1, 0),
   .exprS (.call (.name "g") [])]

/-- C4: analyzing `def g(): pass` then `g()` aborts with the `TypeError`
raised by `values.update(None)`, rather than completing with the callee
contributing nothing as the claim states. -/
theorem c4_missing_return_crashes : runProg 20 prog4 = .error .typeErr := rfl

/-! Claim C7 counterexample.  Assigning the result of a call with zero
`Function` callee members stores an empty TypeValue entry. -/

/-- The failing program of C7: `x = 1` then `y = x()`. -/
def prog7 : List Stmt :=
  [.assign ["x"] (.const .int),
   .assign ["y"] (.call (.name "x") [])]

/-- The final top-level block of the C7 program. -/
def bb7 : BBlock :=
  match runProg 20 prog7 with
  | .ok (bb, _) => bb
  | .error _ => ⟨0, [], [], none⟩

/-- The final state of the C7 program. -/
def st7 : St :=
  match runProg 20 prog7 with
  | .ok (_, σ) => σ
  | .error _ => initSt

/-- C7 counterexample: after `x = 1; y = x()` the analysis completes and the
final Environment contains an entry for `y` mapping to the empty TypeValue —
the target is bound to the empty set, not treated as absent, refuting the
non-emptiness invariant. -/
theorem c7_cex_empty_entry :
    runProg 20 prog7 = .ok (bb7, st7) ∧
    getA (⟨0, "y"⟩ : Ref) bb7.values = some [] := ⟨rfl, rfl⟩

/-! Claim C5 counterexample.  No reserved return-slot name exists: `build1`
ignores `ast.Return`, and `perform1` stores the returned TypeValue in the
block's `retval` attribute, not in any `Ref`. -/

/-- The C5 program: `def f(x): return x`. -/
def prog5 : List Stmt :=
  [.functionDef "f" ["x"] [.returnS (some (.name "x"))] (1, 0)]

/-- The C5 program extended with a call: `y = f(1)`. -/
def prog5b : List Stmt :=
  prog5 ++ [.assign ["y"] (.call (.name "f") [.const .int])]

/-- The state after scope construction of the C5 program. -/
def st5 : St := (buildList 0 initSt prog5).getD initSt

/-- The final state after running the C5 program with a call. -/
def st5b : St :=
  match runProg 20 prog5b with
  | .ok (_, σ) => σ
  | .error _ => initSt

/-- C5 counterexample: the scope of `f` (whose body contains a return
statement) holds exactly one `Ref`, the parameter `x` — no VarRef under any
reserved return-slot name exists; and after analyzing a call of `f`, the
cached environment still binds only `x`, with the returned TypeValue held
in the block's `retval` field instead. -/
theorem c5_cex_no_return_slot :
    buildList 0 initSt prog5 = some st5 ∧
    st5.nss.get? 1 = some ⟨".f", some 0, [("x", ⟨1, "x"⟩)], []⟩ ∧
    getA (0, [["class int"]]) st5b.bbs =
      some ⟨1, [[(⟨0, "f"⟩, [TyObj.func 0])]],
            [(⟨1, "x"⟩, [TyObj.basic .int])], some [TyObj.basic .int]⟩ :=
  ⟨rfl, rfl, rfl⟩

/-! Claim C8 counterexample.  `BBlock.eval` of an `ast.Lambda` creates and
registers a fresh `Function` object at every evaluation. -/

/-- The C8 lambda expression. -/
def e8 : Expr := .lam ["x"] (.name "x") (5, 0)

/-- A root block for evaluating the C8 lambda. -/
def bb8 : BBlock := ⟨0, [], [], none⟩

/-- State after the first evaluation of the C8 lambda. -/
def st8a : St :=
  match evalExpr 3 bb8 initSt e8 with
  | .ok (_, σ) => σ
  | .error _ => initSt

/-- State after the second evaluation of the C8 lambda. -/
def st8b : St :=
  match evalExpr 3 bb8 st8a e8 with
  | .ok (_, σ) => σ
  | .error _ => initSt

/-- C8 counterexample: evaluating the same lambda node twice yields two
distinct `Function` objects (arena indices 0 and 1), not the same one, and
the second registration overwrites the global table entry for the node's
identifier. -/
theorem c8_cex_fresh_lambda :
    evalExpr 3 bb8 initSt e8 = .ok ([TyObj.func 0], st8a) ∧
    evalExpr 3 bb8 st8a e8 = .ok ([TyObj.func 1], st8b) ∧
    ([TyObj.func 1] : TV) ≠ [TyObj.func 0] ∧
    getA (idtree (.lamId (5, 0))) st8b.ftable = some 1 :=
  ⟨rfl, rfl, by decide, rfl⟩

/-! Parameter-binding lemmas (`Function.apply`, the `zip` loop). -/

/-- Full characterization of the binding loop: it succeeds whenever every
parameter resolves, binds each zipped (parameter, argument) pair to exactly
the argument, and leaves every other `Ref` as it was in the seed
environment. -/
theorem bindParams_spec (nss : List Namespace) (sid : Nat) :
    ∀ (params : List String) (args : List TV) (vals : Env),
      (∀ p ∈ params, lookupIn nss nss.length sid p = some ⟨sid, p⟩) →
      params.Nodup →
      ∃ E, bindParams nss sid params args vals = .ok E ∧
        (∀ pa ∈ params.zip args, getA (⟨sid, pa.1⟩ : Ref) E = some pa.2) ∧
        (∀ r : Ref, (∀ p ∈ params.take args.length, r ≠ ⟨sid, p⟩) → getA r E = getA r vals) := by
  intro params
  induction params with
  | nil =>
    intro args vals _ _
    refine ⟨vals, ?_, by simp, fun r _ => rfl⟩
    cases args <;> rfl
  | cons p ps ih =>
    intro args vals hres hnd
    cases args with
    | nil =>
      refine ⟨vals, rfl, by simp, fun r _ => rfl⟩
    | cons a rest =>
      have hp := hres p (List.mem_cons_self p ps)
      have hpnotin : p ∉ ps := (List.nodup_cons.mp hnd).1
      obtain ⟨E, hE, h1, h3⟩ :=
        ih rest (setA (⟨sid, p⟩ : Ref) a vals)
          (fun q hq => hres q (List.mem_cons_of_mem _ hq))
          (List.nodup_cons.mp hnd).2
      refine ⟨E, ?_, ?_, ?_⟩
      · simp only [bindParams, hp]
        exact hE
      · intro pa hpa
        rw [List.zip_cons_cons, List.mem_cons] at hpa
        rcases hpa with rfl | hpa
        · have hne : ∀ q ∈ ps.take rest.length, (⟨sid, p⟩ : Ref) ≠ ⟨sid, q⟩ := by
            intro q hq heq
            have hqps : q ∈ ps := List.take_subset _ _ hq
            cases heq
            exact hpnotin hqps
          rw [h3 _ hne, getA_setA_self]
        · exact h1 pa hpa
      · intro r hr
        have hrp : r ≠ (⟨sid, p⟩ : Ref) :=
          hr p (by
            simp only [List.length_cons, List.take_succ_cons]
            exact List.mem_cons_self _ _)
        have hr' : ∀ q ∈ ps.take rest.length, r ≠ (⟨sid, q⟩ : Ref) := by
          intro q hq
          exact hr q (by
            simp only [List.length_cons, List.take_succ_cons]
            exact List.mem_cons_of_mem _ hq)
        rw [h3 r hr', getA_setA_ne hrp]

/-- C10: `apply` performs no arity check.  When a call supplies fewer
argument TypeValues than declared parameters (or indeed any number), the
`zip` binding loop succeeds, binds exactly the zipped prefix of parameters
to their incoming arguments, and leaves every remaining parameter with no
entry in the fresh environment. -/
theorem c10_arity_truncation (nss : List Namespace) (sid : Nat) (params : List String)
    (args : List TV)
    (hres : ∀ p ∈ params, lookupIn nss nss.length sid p = some ⟨sid, p⟩)
    (hnd : params.Nodup) :
    ∃ E, bindParams nss sid params args [] = .ok E ∧
      (∀ pa ∈ params.zip args, getA (⟨sid, pa.1⟩ : Ref) E = some pa.2) ∧
      (∀ p ∈ params.drop args.length, getA (⟨sid, p⟩ : Ref) E = none) := by
  obtain ⟨E, hE, h1, h3⟩ := bindParams_spec nss sid params args [] hres hnd
  refine ⟨E, hE, h1, ?_⟩
  intro p hp
  have hnd' : (params.take args.length ++ params.drop args.length).Nodup := by
    rwa [List.take_append_drop]
  have hdisj := (List.nodup_append.mp hnd').2.2
  have hnotin : p ∉ params.take args.length := fun hmem => hdisj hmem hp
  have := h3 (⟨sid, p⟩ : Ref) (by
    intro q hq heq
    cases heq
    exact hnotin hq)
  rw [this]
  rfl

/-- C6 amended theorem: on a fresh analysis each parameter's `Ref` is bound
to exactly the incoming argument TypeValue.  The binding loop receives no
caller environment at all, so caller-visible bindings for the parameter's
`Ref` are shadowed rather than unioned in. -/
theorem c6_param_bound_to_argument (nss : List Namespace) (sid : Nat)
    (params : List String) (args : List TV)
    (hres : ∀ p ∈ params, lookupIn nss nss.length sid p = some ⟨sid, p⟩)
    (hnd : params.Nodup) :
    ∃ E, bindParams nss sid params args [] = .ok E ∧
      ∀ pa ∈ params.zip args, getA (⟨sid, pa.1⟩ : Ref) E = some pa.2 := by
  obtain ⟨E, hE, h1, _⟩ := bindParams_spec nss sid params args [] hres hnd
  exact ⟨E, hE, h1⟩

/-! Claim C6 counterexample: a concrete `apply` whose caller chain binds
the parameter's `Ref` to the string singleton while the incoming argument
is the integer singleton. -/

/-- The C6 state: a root namespace and the scope of `def f(x): pass`. -/
def st6 : St :=
  ⟨[⟨"", none, [], []⟩, ⟨".f", some 0, [("x", ⟨1, "x"⟩)], []⟩],
   [⟨1, .fnDef "f" ["x"] [.passS] (2, 0)⟩], [("def:f:2:0", 0)], [], []⟩

/-- The C6 caller environment chain: the parameter's own `Ref` is visible
with the string singleton (as happens under recursive application). -/
def envs6 : List Env := [[(⟨1, "x"⟩, [TyObj.basic .str])]]

/-- State after the C6 `apply`. -/
def st6b : St :=
  match applyFunc 5 0 [[TyObj.basic .int]] envs6 st6 with
  | .ok (_, σ) => σ
  | .error _ => initSt

/-- The C6 cache key. -/
def key6 : Nat × Key := (0, keyOf st6.funcs [[TyObj.basic .int]])

/-- The cached block of the C6 `apply`. -/
def bb6 : BBlock := (getA key6 st6b.bbs).getD ⟨0, [], [], none⟩

/-- C6 counterexample: applying `f` to the integer singleton while the
caller chain binds the parameter's `Ref` to the string singleton leaves the
parameter bound to the integer singleton alone; the union demanded by the
claim would also contain the string member, which the actual binding does
not. -/
theorem c6_cex_no_union_with_preexisting :
    applyFunc 5 0 [[TyObj.basic .int]] envs6 st6 = .ok (none, st6b) ∧
    findEnv ⟨1, "x"⟩ envs6 = some [TyObj.basic .str] ∧
    getA key6 st6b.bbs = some bb6 ∧
    getA (⟨1, "x"⟩ : Ref) bb6.values = some [TyObj.basic .int] ∧
    TyObj.basic .str ∈ setUpdate [TyObj.basic .str] [TyObj.basic .int] ∧
    TyObj.basic .str ∉ ([TyObj.basic .int] : TV) :=
  ⟨rfl, rfl, rfl, rfl, by decide, by decide⟩

/-! Merge lemmas (`BBlock.merge`). -/

theorem mergeOne_cons (vals : Env) (c : Ref × TV) (rest : List (Ref × TV)) :
    mergeOne vals (c :: rest) =
      mergeOne (match getA c.1 vals with
                | some v0 => setA c.1 (setUpdate v0 c.2) vals
                | none => setA c.1 c.2 vals) rest := rfl

/-- A binding present before `mergeOne` survives it and only grows. -/
theorem getA_mergeOne_grows :
    ∀ (child : List (Ref × TV)) (vals : Env) (r : Ref) (v0 : TV),
      getA r vals = some v0 →
      ∃ v, getA r (mergeOne vals child) = some v ∧ v0 ⊆ v := by
  intro child
  induction child with
  | nil => exact fun vals r v0 h => ⟨v0, h, fun _ hx => hx⟩
  | cons c rest ih =>
    intro vals r v0 h
    rw [mergeOne_cons]
    by_cases hr : r = c.1
    · subst hr
      rw [h]
      obtain ⟨v, hv, hsub⟩ := ih _ c.1 (setUpdate v0 c.2) (getA_setA_self _ _ _)
      exact ⟨v, hv, fun x hx => hsub (subset_setUpdate_left _ _ hx)⟩
    · have hstep :
          getA r (match getA c.1 vals with
                  | some v0 => setA c.1 (setUpdate v0 c.2) vals
                  | none => setA c.1 c.2 vals) = some v0 := by
        cases hc : getA c.1 vals with
        | some w => rw [getA_setA_ne hr]; exact h
        | none => rw [getA_setA_ne hr]; exact h
      exact ih _ r v0 hstep

/-- A binding of the child is contained in the result of `mergeOne`. -/
theorem getA_mergeOne_from_child :
    ∀ (child : List (Ref × TV)) (vals : Env) (r : Ref) (vc : TV),
      getA r child = some vc →
      ∃ v, getA r (mergeOne vals child) = some v ∧ vc ⊆ v := by
  intro child
  induction child with
  | nil => intro vals r vc h; simp [getA] at h
  | cons c rest ih =>
    intro vals r vc h
    rw [mergeOne_cons]
    obtain ⟨rk, rv⟩ := c
    by_cases hr : r = rk
    · subst hr
      simp [getA] at h
      subst h
      cases hc : getA r vals with
      | some v0 =>
        obtain ⟨v, hv, hsub⟩ := getA_mergeOne_grows rest _ r (setUpdate v0 rv) (getA_setA_self _ _ _)
        exact ⟨v, hv, fun x hx => hsub (subset_setUpdate_right _ _ hx)⟩
      | none =>
        obtain ⟨v, hv, hsub⟩ := getA_mergeOne_grows rest _ r rv (getA_setA_self _ _ _)
        exact ⟨v, hv, hsub⟩
    · rw [getA] at h
      rw [if_neg hr] at h
      exact ih _ r vc h

/-- C3: the parent environment obtained by `BBlock.merge` maps every `Ref`
present in either child, and for every `Ref` present in the result, the
merged TypeValue contains each child's TypeValue for that `Ref` where
present — the union never loses members. -/
theorem c3_merge_superset (vals values1 values2 : Env) (r : Ref) :
    ((getA r values1).isSome = true ∨ (getA r values2).isSome = true →
      (getA r (BBlock.merge vals values1 values2)).isSome = true) ∧
    (∀ v, getA r (BBlock.merge vals values1 values2) = some v →
      (∀ v1, getA r values1 = some v1 → v1 ⊆ v) ∧
      (∀ v2, getA r values2 = some v2 → v2 ⊆ v)) := by
  constructor
  · rintro (h1 | h2)
    · rw [Option.isSome_iff_exists] at h1
      obtain ⟨v1, hv1⟩ := h1
      obtain ⟨w, hw, _⟩ := getA_mergeOne_from_child values1 vals r v1 hv1
      obtain ⟨v, hv, _⟩ := getA_mergeOne_grows values2 _ r w hw
      rw [BBlock.merge, hv]
      rfl
    · rw [Option.isSome_iff_exists] at h2
      obtain ⟨v2, hv2⟩ := h2
      obtain ⟨v, hv, _⟩ := getA_mergeOne_from_child values2 (mergeOne vals values1) r v2 hv2
      rw [BBlock.merge, hv]
      rfl
  · intro v hv
    rw [BBlock.merge] at hv
    constructor
    · intro v1 hv1
      obtain ⟨w, hw, hsub1⟩ := getA_mergeOne_from_child values1 vals r v1 hv1
      obtain ⟨v', hv', hsub2⟩ := getA_mergeOne_grows values2 _ r w hw
      rw [hv'] at hv
      injection hv with hv
      subst hv
      exact fun x hx => hsub2 (hsub1 hx)
    · intro v2 hv2
      obtain ⟨v', hv', hsub⟩ := getA_mergeOne_from_child values2 (mergeOne vals values1) r v2 hv2
      rw [hv'] at hv
      injection hv with hv
      subst hv
      exact hsub

/-! Claim C5 amended theorem: scope construction ignores `return`, and
performing `return expr` records the value in the block's `retval` field,
leaving the environment untouched. -/

/-- C5 amended: no reserved return-slot VarRef exists.  `build1` of a
return statement adds nothing to any scope, and performing a return with a
value evaluates it and stores it in the block's `retval` field, leaving
`values` unchanged. -/
theorem c5_amended_return_is_retval :
    (∀ (sid : Nat) (σ : St) (v : Option Expr), build1 sid σ (.returnS v) = some σ) ∧
    (∀ (fuel : Nat) (bb : BBlock) (σ σ1 : St) (e : Expr) (v : TV),
      evalExpr fuel bb σ e = .ok (v, σ1) →
      perform1 (fuel + 1) bb σ (.returnS (some e)) = .ok ({ bb with retval := some v }, σ1)) := by
  refine ⟨fun sid σ v => rfl, fun fuel bb σ σ1 e v h => ?_⟩
  simp only [perform1, h]

/-! Claim C8 amended theorem: a `FunctionDef` visit reuses the registered
`Function` through the global table and creates nothing, while every
evaluation of a lambda expression creates a fresh `Function` and
re-registers it. -/

/-- C8 amended: performing a `FunctionDef` statement looks its `Function`
up in the global registration table and reuses it, leaving the state
untouched (so repeated visits yield the same object with its accumulated
cache); evaluating a `Lambda` expression instead creates a fresh `Function`
(the next arena index, whose cache is necessarily empty since the caches
are untouched) and overwrites the table entry for the node's identifier. -/
theorem c8_amended_def_reuse_lambda_fresh :
    (∀ (fuel : Nat) (bb : BBlock) (σ : St) (name : String) (params : List String)
        (body : List Stmt) (pos : Nat × Nat) (ref : Ref) (fid : Nat),
      lookupIn σ.nss σ.nss.length bb.space name = some ref →
      getA (idtree (.fndefId name pos)) σ.ftable = some fid →
      perform1 (fuel + 1) bb σ (.functionDef name params body pos)
        = .ok ({ bb with values := setA ref [TyObj.func fid] bb.values }, σ)) ∧
    (∀ (fuel : Nat) (bb : BBlock) (σ : St) (params : List String) (body : Expr)
        (pos : Nat × Nat),
      ∃ σ', evalExpr (fuel + 1) bb σ (.lam params body pos)
          = .ok ([TyObj.func σ.funcs.length], σ') ∧
        σ'.funcs.length = σ.funcs.length + 1 ∧
        getA (idtree (.lamId pos)) σ'.ftable = some σ.funcs.length ∧
        σ'.bbs = σ.bbs ∧ σ'.acount = σ.acount) := by
  constructor
  · intro fuel bb σ name params body pos ref fid h1 h2
    simp only [perform1, h1, h2]
  · intro fuel bb σ params body pos
    refine ⟨_, rfl, by simp, getA_setA_self _ _ _, rfl, rfl⟩

/-! Claim C7 amended theorem: a call whose callee TypeValue has no
`Function` member evaluates to the empty TypeValue, and assigning it binds
the target to a present-but-empty entry. -/

/-- The call-member loop leaves the accumulator and state untouched when
the callee set contains no `Function` member. -/
theorem callLoop_no_funcs :
    ∀ (ts : List TyObj) (fuel : Nat) (bb : BBlock) (σ : St) (argEs : List Expr) (acc : TV),
      (∀ fid, TyObj.func fid ∉ ts) → ts.length < fuel →
      callLoop fuel bb σ ts argEs acc = .ok (acc, σ) := by
  intro ts
  induction ts with
  | nil =>
    intro fuel bb σ argEs acc _ hlen
    cases fuel with
    | zero => omega
    | succ f => rfl
  | cons t rest ih =>
    intro fuel bb σ argEs acc hno hlen
    cases fuel with
    | zero => omega
    | succ f =>
      match t with
      | .basic b =>
        exact ih f bb σ argEs acc
          (fun fid h => hno fid (List.mem_cons_of_mem _ h))
          (by simpa using Nat.lt_of_succ_lt_succ hlen)
      | .func fid => exact absurd (List.mem_cons_self _ _) (hno fid)

/-- C7 amended: when the callee TypeValue contains zero `Function` members,
the call evaluates to the empty TypeValue without error, and assigning its
result binds the target to an entry holding the empty TypeValue — present
with the empty set, not absent, so the non-emptiness invariant fails for
exactly these assignments. -/
theorem c7_amended_empty_call_binding (fuel : Nat) (bb : BBlock) (σ σ1 : St)
    (fe : Expr) (argEs : List Expr) (S : TV) (t : String) (r : Ref)
    (hS : evalExpr fuel bb σ fe = .ok (S, σ1))
    (hno : ∀ fid, TyObj.func fid ∉ S)
    (hlen : S.length < fuel)
    (hl : lookupIn σ1.nss σ1.nss.length bb.space t = some r) :
    evalExpr (fuel + 1) bb σ (.call fe argEs) = .ok ([], σ1) ∧
    perform1 (fuel + 2) bb σ (.assign [t] (.call fe argEs))
      = .ok ({ bb with values := setA r [] bb.values }, σ1) ∧
    getA r (setA r [] bb.values) = some [] := by
  have hc : evalExpr (fuel + 1) bb σ (.call fe argEs) = .ok ([], σ1) := by
    simp only [evalExpr, hS]
    exact callLoop_no_funcs S fuel bb σ1 argEs [] hno hlen
  refine ⟨hc, ?_, getA_setA_self _ _ _⟩
  simp only [perform1, hc]
  simp [assignTargets, hl]

/-! State-evolution invariant for the cache-correctness claim (C1): along
every successful evaluator step the function arena only grows, every cache
entry present beforehand is still present, and the analyses counter of a
present entry never changes (entries are inserted, with a counter bump, only
when absent, and never removed). -/

/-- Invariant relating a state to any later state of the same analysis. -/
def StepOK (σ σ' : St) : Prop :=
  σ.funcs <+: σ'.funcs ∧
  ∀ k : Nat × Key, (getA k σ.bbs).isSome = true →
    (getA k σ'.bbs).isSome = true ∧ getCount k σ'.acount = getCount k σ.acount

theorem StepOK.refl (σ : St) : StepOK σ σ :=
  ⟨List.prefix_refl _, fun _ h => ⟨h, rfl⟩⟩

theorem StepOK.trans {σ1 σ2 σ3 : St} (h12 : StepOK σ1 σ2) (h23 : StepOK σ2 σ3) :
    StepOK σ1 σ3 := by
  obtain ⟨hp12, hb12⟩ := h12
  obtain ⟨hp23, hb23⟩ := h23
  refine ⟨hp12.trans hp23, fun k hk => ?_⟩
  obtain ⟨hk2, hc2⟩ := hb12 k hk
  obtain ⟨hk3, hc3⟩ := hb23 k hk2
  exact ⟨hk3, hc3.trans hc2⟩

theorem StepOK.insertFresh {σ : St} {k : Nat × Key} (bb : BBlock)
    (hmiss : getA k σ.bbs = none) :
    StepOK σ { σ with bbs := setA k bb σ.bbs, acount := bumpA k σ.acount } := by
  refine ⟨List.prefix_refl _, fun k' hk' => ?_⟩
  have hne : k' ≠ k := by
    rintro rfl
    rw [hmiss] at hk'
    simp at hk'
  exact ⟨by rwa [getA_setA_ne hne] , getCount_bumpA_ne hne _⟩

theorem StepOK.overwrite (σ : St) (k : Nat × Key) (bb : BBlock) :
    StepOK σ { σ with bbs := setA k bb σ.bbs } :=
  ⟨List.prefix_refl _, fun _k' hk' => ⟨isSome_getA_setA k bb hk', rfl⟩⟩

/-- Inversion of a successful pair-valued step. -/
theorem okInv {α β : Type} {a a' : α} {b b' : β}
    (h : (Except.ok (a, b) : Except Err (α × β)) = .ok (a', b')) : a = a' ∧ b = b' := by
  injection h with h'
  exact ⟨congrArg Prod.fst h', congrArg Prod.snd h'⟩

/-- Every successful run of any of the mutually recursive evaluator
functions satisfies `StepOK` between its input and output states. -/
theorem stepOK_all : ∀ fuel : Nat,
    (∀ bb σ e v σ', evalExpr fuel bb σ e = .ok (v, σ') → StepOK σ σ') ∧
    (∀ bb σ ts argEs acc v σ', callLoop fuel bb σ ts argEs acc = .ok (v, σ') → StepOK σ σ') ∧
    (∀ bb σ es vs σ', evalArgs fuel bb σ es = .ok (vs, σ') → StepOK σ σ') ∧
    (∀ fid args envs σ r σ', applyFunc fuel fid args envs σ = .ok (r, σ') → StepOK σ σ') ∧
    (∀ bb σ body orelse bb' σ', performBranch fuel bb σ body orelse = .ok (bb', σ') →
      StepOK σ σ') ∧
    (∀ bb σ s bb' σ', perform1 fuel bb σ s = .ok (bb', σ') → StepOK σ σ') ∧
    (∀ bb σ ss bb' σ', performList fuel bb σ ss = .ok (bb', σ') → StepOK σ σ') := by
  intro fuel
  induction fuel with
  | zero =>
    refine ⟨fun bb σ e v σ' h => ?_, fun bb σ ts argEs acc v σ' h => ?_,
      fun bb σ es vs σ' h => ?_, fun fid args envs σ r σ' h => ?_,
      fun bb σ body orelse bb' σ' h => ?_, fun bb σ s bb' σ' h => ?_,
      fun bb σ ss bb' σ' h => ?_⟩
    · simp [evalExpr] at h
    · simp [callLoop] at h
    · simp [evalArgs] at h
    · simp [applyFunc] at h
    · simp [performBranch] at h
    · simp [perform1] at h
    · simp [performList] at h
  | succ fuel ih =>
    obtain ⟨ihE, ihC, ihA, ihF, ihB, ih1, ihL⟩ := ih
    refine ⟨?_, ?_, ?_, ?_, ?_, ?_, ?_⟩
    -- evalExpr
    · intro bb σ e v σ' h
      cases e with
      | name id =>
        simp only [evalExpr] at h
        split at h
        · simp at h
        · split at h
          · obtain ⟨-, rfl⟩ := okInv h
            exact StepOK.refl σ
          · split at h
            · obtain ⟨-, rfl⟩ := okInv h
              exact StepOK.refl σ
            · simp at h
      | const c =>
        simp only [evalExpr] at h
        obtain ⟨-, rfl⟩ := okInv h
        exact StepOK.refl σ
      | binOp l op r =>
        simp only [evalExpr] at h
        split at h
        · simp at h
        · rename_i v1 σ1 hl
          split at h
          · simp at h
          · rename_i v2 σ2 hr
            obtain ⟨-, rfl⟩ := okInv h
            exact (ihE _ _ _ _ _ hl).trans (ihE _ _ _ _ _ hr)
      | unaryOp op operand =>
        simp only [evalExpr] at h
        split at h
        · simp at h
        · rename_i v1 σ1 hop
          obtain ⟨-, rfl⟩ := okInv h
          exact ihE _ _ _ _ _ hop
      | call f argEs =>
        simp only [evalExpr] at h
        split at h
        · simp at h
        · rename_i fv σ1 hf
          exact (ihE _ _ _ _ _ hf).trans (ihC _ _ _ _ _ _ _ h)
      | lam params body pos =>
        simp only [evalExpr] at h
        obtain ⟨-, rfl⟩ := okInv h
        exact ⟨List.prefix_append _ _, fun k hk => ⟨hk, rfl⟩⟩
      | unsupportedE => simp [evalExpr] at h
    -- callLoop
    · intro bb σ ts argEs acc v σ' h
      match ts with
      | [] =>
        simp only [callLoop] at h
        obtain ⟨-, rfl⟩ := okInv h
        exact StepOK.refl σ
      | .basic b :: rest =>
        simp only [callLoop] at h
        exact ihC _ _ _ _ _ _ _ h
      | .func fid :: rest =>
        simp only [callLoop] at h
        split at h
        · simp at h
        · rename_i args σ1 hargs
          split at h
          · simp at h
          · simp at h
          · rename_i w σ2 happ
            exact ((ihA _ _ _ _ _ hargs).trans (ihF _ _ _ _ _ _ happ)).trans
              (ihC _ _ _ _ _ _ _ h)
      -- evalArgs
    · intro bb σ es vs σ' h
      match es with
      | [] =>
        simp only [evalArgs] at h
        obtain ⟨-, rfl⟩ := okInv h
        exact StepOK.refl σ
      | e :: rest =>
        simp only [evalArgs] at h
        split at h
        · simp at h
        · rename_i v1 σ1 he
          split at h
          · simp at h
          · rename_i vrest σ2 hrest
            obtain ⟨-, rfl⟩ := okInv h
            exact (ihE _ _ _ _ _ he).trans (ihA _ _ _ _ _ hrest)
    -- applyFunc
    · intro fid args envs σ r σ' h
      simp only [applyFunc] at h
      split at h
      · simp at h
      · rename_i f hf
        split at h
        · rename_i bbc hhit
          obtain ⟨-, rfl⟩ := okInv h
          exact StepOK.refl σ
        · rename_i hmiss
          split at h
          · simp at h
          · rename_i vals hbind
            split at h
            · rename_i lps lbody lpos
              split at h
              · simp at h
              · rename_i v2 σ2 heval
                obtain ⟨-, rfl⟩ := okInv h
                exact ((StepOK.insertFresh _ hmiss).trans (ihE _ _ _ _ _ heval)).trans
                  (StepOK.overwrite _ _ _)
            · rename_i fname fps fbody fpos
              split at h
              · simp at h
              · rename_i bb2 σ2 hperf
                obtain ⟨-, rfl⟩ := okInv h
                exact ((StepOK.insertFresh _ hmiss).trans (ihL _ _ _ _ _ hperf)).trans
                  (StepOK.overwrite _ _ _)
    -- performBranch
    · intro bb σ body orelse bb' σ' h
      simp only [performBranch] at h
      split at h
      · simp at h
      · rename_i bb1 σ1 hbody
        split at h
        · simp at h
        · rename_i bb2 σ2 horelse
          obtain ⟨-, rfl⟩ := okInv h
          exact (ihL _ _ _ _ _ hbody).trans (ihL _ _ _ _ _ horelse)
    -- perform1
    · intro bb σ s bb' σ' h
      cases s with
      | functionDef name params body pos =>
        simp only [perform1] at h
        split at h
        · simp at h
        · split at h
          · simp at h
          · obtain ⟨-, rfl⟩ := okInv h
            exact StepOK.refl σ
      | ifS t body orelse =>
        simp only [perform1] at h
        exact ihB _ _ _ _ _ _ h
      | whileS t body orelse =>
        simp only [perform1] at h
        exact ihB _ _ _ _ _ _ h
      | forS tg it body orelse =>
        simp only [perform1] at h
        exact ihB _ _ _ _ _ _ h
      | assign targets value =>
        simp only [perform1] at h
        split at h
        · simp at h
        · rename_i v1 σ1 hval
          split at h
          · simp at h
          · obtain ⟨-, rfl⟩ := okInv h
            exact ihE _ _ _ _ _ hval
      | augAssign target op value =>
        simp only [perform1] at h
        split at h
        · simp at h
        · rename_i v1 σ1 h1
          split at h
          · simp at h
          · rename_i v2 σ2 h2
            split at h
            · simp at h
            · obtain ⟨-, rfl⟩ := okInv h
              exact (ihE _ _ _ _ _ h1).trans (ihE _ _ _ _ _ h2)
      | globalS names =>
        simp only [perform1] at h
        obtain ⟨-, rfl⟩ := okInv h
        exact StepOK.refl σ
      | exprS e =>
        simp only [perform1] at h
        split at h
        · simp at h
        · rename_i v1 σ1 he
          obtain ⟨-, rfl⟩ := okInv h
          exact ihE _ _ _ _ _ he
      | returnS oe =>
        cases oe with
        | none =>
          simp only [perform1] at h
          obtain ⟨-, rfl⟩ := okInv h
          exact StepOK.refl σ
        | some e =>
          simp only [perform1] at h
          split at h
          · simp at h
          · rename_i v1 σ1 he
            obtain ⟨-, rfl⟩ := okInv h
            exact ihE _ _ _ _ _ he
      | breakS =>
        simp only [perform1] at h
        obtain ⟨-, rfl⟩ := okInv h
        exact StepOK.refl σ
      | continueS =>
        simp only [perform1] at h
        obtain ⟨-, rfl⟩ := okInv h
        exact StepOK.refl σ
      | passS =>
        simp only [perform1] at h
        obtain ⟨-, rfl⟩ := okInv h
        exact StepOK.refl σ
      | unsupportedS => simp [perform1] at h
    -- performList
    · intro bb σ ss bb' σ' h
      match ss with
      | [] =>
        simp only [performList] at h
        obtain ⟨-, rfl⟩ := okInv h
        exact StepOK.refl σ
      | s :: rest =>
        simp only [performList] at h
        split at h
        · simp at h
        · rename_i bb1 σ1 hs
          exact (ih1 _ _ _ _ _ hs).trans (ihL _ _ _ _ _ h)

/-! Stability of the cache key under growth of the function arena. -/

theorem mem_tyInsert {x t : TyObj} : ∀ l : List TyObj, x ∈ tyInsert t l → x = t ∨ x ∈ l := by
  intro l
  induction l with
  | nil => intro h; simpa [tyInsert] using h
  | cons a rest ih =>
    unfold tyInsert
    split
    · intro hx
      rcases List.mem_cons.mp hx with rfl | hx
      · exact Or.inl rfl
      · exact Or.inr hx
    · intro hx
      rcases List.mem_cons.mp hx with rfl | hx
      · exact Or.inr (List.mem_cons_self _ _)
      · rcases ih hx with h1 | h2
        · exact Or.inl h1
        · exact Or.inr (List.mem_cons_of_mem _ h2)

theorem mem_canonTV {x : TyObj} {v : TV} (h : x ∈ canonTV v) : x ∈ v := by
  unfold canonTV at h
  have haux : ∀ l : List TyObj, x ∈ l.foldr tyInsert [] → x ∈ l := by
    intro l
    induction l with
    | nil => intro hx; simp at hx
    | cons a rest ih =>
      intro hx
      rcases mem_tyInsert _ hx with rfl | hx
      · exact List.mem_cons_self _ _
      · exact List.mem_cons_of_mem _ (ih hx)
  exact List.mem_dedup.mp (haux _ h)

theorem get?_of_prefix {α : Type} {l l' : List α} (h : l <+: l') {n : Nat} {x : α}
    (hx : l.get? n = some x) : l'.get? n = some x := by
  obtain ⟨t, rfl⟩ := h
  obtain ⟨hn, -⟩ := List.get?_eq_some.mp hx
  rw [List.get?_eq_getElem?, List.getElem?_append_left hn, ← List.get?_eq_getElem?]
  exact hx

theorem reprT_of_prefix {funcs funcs' : List FuncV} (h : funcs <+: funcs') {t : TyObj}
    (hval : ∀ g, t = TyObj.func g → g < funcs.length) : reprT funcs' t = reprT funcs t := by
  cases t with
  | basic b => cases b <;> rfl
  | func g =>
    have hg : g < funcs.length := hval g rfl
    obtain ⟨tl, rfl⟩ := h
    have hgg : (funcs ++ tl).get? g = funcs.get? g := by
      rw [List.get?_eq_getElem?, List.getElem?_append_left hg, ← List.get?_eq_getElem?]
    simp only [reprT, hgg]

theorem keyOf_of_prefix {funcs funcs' : List FuncV} (h : funcs <+: funcs') {args : List TV}
    (hv : ∀ a ∈ args, ∀ g, TyObj.func g ∈ a → g < funcs.length) :
    keyOf funcs' args = keyOf funcs args := by
  unfold keyOf
  apply List.map_congr_left
  intro v hvmem
  have hmap : (canonTV v).map (reprT funcs') = (canonTV v).map (reprT funcs) := by
    apply List.map_congr_left
    intro t ht
    apply reprT_of_prefix h
    intro g hg
    subst hg
    exact hv v hvmem g (mem_canonTV ht)
  rw [hmap]

/-! Claim C1: memoization of `Function.apply`. -/

/-- C1: starting from a state with no cache entry for the signature, a first
call analyzes the body and bumps the per-signature analysis counter by
exactly one overall (recursive same-signature calls inside the body hit the
provisional entry), creating the cache entry; and a second call with an
argument list whose signature compares equal returns the cached block's
return value immediately with the state completely unchanged — no
re-analysis — for every caller environment chain and every fuel. -/
theorem c1_cache_hit_second_call (fuel : Nat) (fid : Nat) (args : List TV)
    (envs1 envs2 : List Env) (σ σ1 : St) (r1 : Option TV) (f : FuncV)
    (hf : σ.funcs.get? fid = some f)
    (hv : ∀ a ∈ args, ∀ g, TyObj.func g ∈ a → g < σ.funcs.length)
    (hmiss : getA (fid, keyOf σ.funcs args) σ.bbs = none)
    (h1 : applyFunc (fuel + 1) fid args envs1 σ = .ok (r1, σ1)) :
    getCount (fid, keyOf σ.funcs args) σ1.acount
      = getCount (fid, keyOf σ.funcs args) σ.acount + 1 ∧
    ∃ bb, getA (fid, keyOf σ.funcs args) σ1.bbs = some bb ∧
      ∀ fuel2 : Nat, applyFunc (fuel2 + 1) fid args envs2 σ1 = .ok (bb.retval, σ1) := by
  simp only [applyFunc, hf, hmiss] at h1
  split at h1
  · simp at h1
  · rename_i vals hbind
    split at h1
    · rename_i lps lbody lpos
      split at h1
      · simp at h1
      · rename_i v2 σ2 heval
        obtain ⟨-, hσ⟩ := okInv h1
        subst hσ
        have hstep := (stepOK_all fuel).1 _ _ _ _ _ heval
        have hkI : (getA (fid, keyOf σ.funcs args)
            (setA (fid, keyOf σ.funcs args) (⟨f.space, envs1, vals, none⟩ : BBlock)
              σ.bbs)).isSome = true := by
          rw [getA_setA_self]; rfl
        obtain ⟨hsome2, hcnt2⟩ := hstep.2 _ hkI
        have hpre : σ.funcs <+: σ2.funcs := hstep.1
        have hf' : σ2.funcs.get? fid = some f := get?_of_prefix hpre hf
        have hkey : keyOf σ2.funcs args = keyOf σ.funcs args := keyOf_of_prefix hpre hv
        refine ⟨hcnt2.trans (getCount_bumpA_self _ _), _, getA_setA_self _ _ _, ?_⟩
        intro fuel2
        simp only [applyFunc, hf', hkey, getA_setA_self]
    · rename_i fname fps fbody fpos
      split at h1
      · simp at h1
      · rename_i bb2 σ2 hperf
        obtain ⟨-, hσ⟩ := okInv h1
        subst hσ
        have hstep := (stepOK_all fuel).2.2.2.2.2.2 _ _ _ _ _ hperf
        have hkI : (getA (fid, keyOf σ.funcs args)
            (setA (fid, keyOf σ.funcs args) (⟨f.space, envs1, vals, none⟩ : BBlock)
              σ.bbs)).isSome = true := by
          rw [getA_setA_self]; rfl
        obtain ⟨hsome2, hcnt2⟩ := hstep.2 _ hkI
        have hpre : σ.funcs <+: σ2.funcs := hstep.1
        have hf' : σ2.funcs.get? fid = some f := get?_of_prefix hpre hf
        have hkey : keyOf σ2.funcs args = keyOf σ.funcs args := keyOf_of_prefix hpre hv
        refine ⟨hcnt2.trans (getCount_bumpA_self _ _), _, getA_setA_self _ _ _, ?_⟩
        intro fuel2
        simp only [applyFunc, hf', hkey, getA_setA_self]

/-! Concrete scenario for C1: `def g(): pass`, called from an empty cache,
then again with a changed caller environment chain. -/

/-- C1 witness scenario: arena with one function `g` with body `pass`. -/
def stW1 : St :=
  ⟨[⟨"", none, [], []⟩, ⟨".g", some 0, [], []⟩],
   [⟨1, .fnDef "g" [] [.passS] (1, 0)⟩], [("def:g:1:0", 0)], [], []⟩

/-- A changed caller environment chain for the second C1 call. -/
def envsW2 : List Env := [[(⟨0, "q"⟩, [TyObj.basic .int])]]

/-- State after the first C1 call. -/
def stW1b : St :=
  match applyFunc 3 0 [] [] stW1 with
  | .ok (_, σ) => σ
  | .error _ => initSt

/-- Witness for C1 at the concrete scenario, discharging every hypothesis. -/
theorem c1_witness :
    stW1.funcs.get? 0 = some ⟨1, .fnDef "g" [] [.passS] (1, 0)⟩ ∧
    getA (0, keyOf stW1.funcs []) stW1.bbs = none ∧
    applyFunc 3 0 [] [] stW1 = .ok (none, stW1b) ∧
    (getCount (0, keyOf stW1.funcs []) stW1b.acount
        = getCount (0, keyOf stW1.funcs []) stW1.acount + 1 ∧
      ∃ bb, getA (0, keyOf stW1.funcs []) stW1b.bbs = some bb ∧
        ∀ fuel2 : Nat, applyFunc (fuel2 + 1) 0 [] envsW2 stW1b = .ok (bb.retval, stW1b)) :=
  ⟨rfl, rfl, rfl,
    c1_cache_hit_second_call 2 0 [] [] envsW2 stW1 stW1b none _ rfl
      (fun a ha => absurd ha (List.not_mem_nil a)) rfl rfl⟩

/-! Witnesses: each hypothesis-bearing claim theorem applied at a concrete
input with every hypothesis discharged. -/

/-- Witness for C3: merging two children that both bind one `Ref` yields a
present binding containing both children's members. -/
theorem c3_witness :
    (getA (⟨0, "x"⟩ : Ref)
        (BBlock.merge [] [((⟨0, "x"⟩ : Ref), [TyObj.basic .int])]
          [((⟨0, "x"⟩ : Ref), [TyObj.basic .str])])).isSome = true ∧
    [TyObj.basic .int] ⊆ setUpdate [TyObj.basic .int] [TyObj.basic .str] ∧
    [TyObj.basic .str] ⊆ setUpdate [TyObj.basic .int] [TyObj.basic .str] :=
  ⟨(c3_merge_superset [] [((⟨0, "x"⟩ : Ref), [TyObj.basic .int])]
      [((⟨0, "x"⟩ : Ref), [TyObj.basic .str])] ⟨0, "x"⟩).1 (Or.inl rfl),
   ((c3_merge_superset [] [((⟨0, "x"⟩ : Ref), [TyObj.basic .int])]
      [((⟨0, "x"⟩ : Ref), [TyObj.basic .str])] ⟨0, "x"⟩).2
        (setUpdate [TyObj.basic .int] [TyObj.basic .str]) rfl).1 [TyObj.basic .int] rfl,
   ((c3_merge_superset [] [((⟨0, "x"⟩ : Ref), [TyObj.basic .int])]
      [((⟨0, "x"⟩ : Ref), [TyObj.basic .str])] ⟨0, "x"⟩).2
        (setUpdate [TyObj.basic .int] [TyObj.basic .str]) rfl).2 [TyObj.basic .str] rfl⟩

/-- Witness for the C5 amended theorem at a concrete return statement. -/
theorem c5_witness :
    build1 0 initSt (.returnS none) = some initSt ∧
    perform1 2 ⟨0, [], [], none⟩ initSt (.returnS (some (.const .int)))
      = .ok (⟨0, [], [], some [TyObj.basic .int]⟩, initSt) :=
  ⟨c5_amended_return_is_retval.1 0 initSt none,
   c5_amended_return_is_retval.2 1 ⟨0, [], [], none⟩ initSt initSt (.const .int)
     [TyObj.basic .int] rfl⟩

/-- Witness for the C6 amended theorem at a concrete one-parameter binding. -/
theorem c6_witness :
    ∃ E, bindParams st6.nss 1 ["x"] [[TyObj.basic .int]] [] = .ok E ∧
      getA (⟨1, "x"⟩ : Ref) E = some [TyObj.basic .int] := by
  obtain ⟨E, hE, h1⟩ := c6_param_bound_to_argument st6.nss 1 ["x"] [[TyObj.basic .int]]
    (by intro p hp; simp at hp; subst hp; rfl) (by decide)
  exact ⟨E, hE, h1 ("x", [TyObj.basic .int]) (by simp)⟩

/-- Scope for the C7 witness: a root namespace with the target `y`. -/
def stW7 : St := ⟨[⟨"", none, [("y", ⟨0, "y"⟩)], []⟩], [], [], [], []⟩

/-- Witness for the C7 amended theorem: assigning `y = (1)()` — a call on
an integer, a callee TypeValue with zero `Function` members. -/
theorem c7_witness :
    evalExpr 3 ⟨0, [], [], none⟩ stW7 (.call (.const .int) []) = .ok ([], stW7) ∧
    perform1 4 ⟨0, [], [], none⟩ stW7 (.assign ["y"] (.call (.const .int) []))
      = .ok (⟨0, [], [((⟨0, "y"⟩ : Ref), [])], none⟩, stW7) ∧
    getA (⟨0, "y"⟩ : Ref) (setA (⟨0, "y"⟩ : Ref) ([] : TV) ([] : Env)) = some ([] : TV) := by
  have h := c7_amended_empty_call_binding 2 ⟨0, [], [], none⟩ stW7 stW7 (.const .int) []
    [TyObj.basic .int] "y" ⟨0, "y"⟩ rfl
    (by intro fid hmem; simp at hmem) (by decide) rfl
  exact ⟨h.1, h.2.1, h.2.2⟩

/-- Scope for the C8 witness: one registered function `g`. -/
def stW8 : St :=
  ⟨[⟨"", none, [("g", ⟨0, "g"⟩)], []⟩], [⟨0, .fnDef "g" [] [.passS] (1, 0)⟩],
   [("def:g:1:0", 0)], [], []⟩

/-- Witness for the C8 amended theorem: a concrete `FunctionDef` visit and a
concrete lambda evaluation. -/
theorem c8_witness :
    perform1 1 ⟨0, [], [], none⟩ stW8 (.functionDef "g" [] [.passS] (1, 0))
      = .ok (⟨0, [], [((⟨0, "g"⟩ : Ref), [TyObj.func 0])], none⟩, stW8) ∧
    ∃ σ', evalExpr 1 ⟨0, [], [], none⟩ stW8 (.lam [] (.const .int) (5, 0))
        = .ok ([TyObj.func stW8.funcs.length], σ') ∧
      σ'.funcs.length = stW8.funcs.length + 1 ∧
      getA (idtree (.lamId (5, 0))) σ'.ftable = some stW8.funcs.length ∧
      σ'.bbs = stW8.bbs ∧ σ'.acount = stW8.acount :=
  ⟨c8_amended_def_reuse_lambda_fresh.1 0 ⟨0, [], [], none⟩ stW8 "g" [] [.passS] (1, 0)
      ⟨0, "g"⟩ 0 rfl rfl,
   c8_amended_def_reuse_lambda_fresh.2 0 ⟨0, [], [], none⟩ stW8 [] (.const .int) (5, 0)⟩

/-- Scope for the C10 witness: three declared parameters. -/
def nssW10 : List Namespace :=
  [⟨"", none, [], []⟩,
   ⟨".h", some 0, [("x", ⟨1, "x"⟩), ("y", ⟨1, "y"⟩), ("z", ⟨1, "z"⟩)], []⟩]

/-- Witness for C10: three parameters, one argument — the first parameter is
bound to the argument, the remaining two have no entry, and binding
succeeds with no arity error. -/
theorem c10_witness :
    ∃ E, bindParams nssW10 1 ["x", "y", "z"] [[TyObj.basic .int]] [] = .ok E ∧
      getA (⟨1, "x"⟩ : Ref) E = some [TyObj.basic .int] ∧
      getA (⟨1, "y"⟩ : Ref) E = none ∧
      getA (⟨1, "z"⟩ : Ref) E = none := by
  obtain ⟨E, hE, h1, h2⟩ := c10_arity_truncation nssW10 1 ["x", "y", "z"]
    [[TyObj.basic .int]] (by intro p hp; fin_cases hp <;> rfl) (by decide)
  refine ⟨E, hE, h1 ("x", [TyObj.basic .int]) (by simp), ?_, ?_⟩
  · exact h2 "y" (by decide)
  · exact h2 "z" (by decide)

end Df0
